import Mathlib

/-!
Verification development for the chain-synchronization and caching engine of
the `polymesh_api_example_gui` repository (files `src/app/mod.rs` and
`src/backend/mod.rs`).

The Rust code is shallowly embedded:
* `HashMap` is modelled as an association list with replace-on-insert
  semantics (`alistInsertGet` returns the previous value, exactly like
  `HashMap::insert`); only key/value semantics are relevant to the program.
* `VecDeque` is modelled as a `List` whose head is the front of the deque.
* Block hashes and block numbers (`BlockHash`, `BlockNumber`) are modelled
  as `Nat`.
* The request channel to the background worker is modelled as a log of
  requested hashes appended to the state field `requests` (corresponding to
  `Backend::get_block_info`, whose only error path merely logs and drops).
* The event channel receiver (`tokio::sync::mpsc::Receiver`) is modelled as
  a queue plus a disconnected flag, with `try_recv` semantics.
* UI-only fields of `BackendState` (`open`, `url`, `need_save`, the
  `Backend` handle) and display-only fields of events (`phase`, `value`)
  are omitted; no cache or preload logic reads them.
-/

set_option autoImplicit false

namespace PolymeshGui

/-! ### Association lists modelling `HashMap` -/

/-- Lookup the value stored for key `k` (`HashMap::get`). -/
def alistLookup {α : Type} {β : Type} [DecidableEq α] (k : α) :
    List (α × β) → Option β
  | [] => none
  | (k', v) :: t => if k = k' then some v else alistLookup k t

/-- Rust `HashMap::insert`: store `v` at key `k`, returning the previous value
(if any) together with the updated map.  A fresh key is appended at the
end; an existing binding is replaced in place. -/
def alistInsertGet {α : Type} {β : Type} [DecidableEq α] (k : α) (v : β) :
    List (α × β) → Option β × List (α × β)
  | [] => (none, [(k, v)])
  | (k', v') :: t =>
    if k = k' then (some v', (k, v) :: t)
    else
      let r := alistInsertGet k v t
      (r.1, (k', v') :: r.2)

/-- Rust `HashMap::insert` when the caller ignores the returned previous value. -/
def alistInsert {α : Type} {β : Type} [DecidableEq α] (k : α) (v : β)
    (l : List (α × β)) : List (α × β) :=
  (alistInsertGet k v l).2

/-- Rust `HashMap::remove` (the returned value is never used by the program):
drop the binding of key `k`. -/
def alistRemove {α : Type} {β : Type} [DecidableEq α] (k : α) :
    List (α × β) → List (α × β)
  | [] => []
  | (k', v) :: t =>
    if k' = k then alistRemove k t else (k', v) :: alistRemove k t

/-! ### Data model (`src/backend/mod.rs`) -/

/-- Block header.  `hash` models the computed `header.hash()`;
`extrinsics_root` and `state_root` are display-only and omitted. -/
structure Header where
  number : Nat
  parent_hash : Nat
  hash : Nat
deriving DecidableEq

/-- Rust `EventInfo` (decoded block event).  The display-only `phase` and
`value` fields are omitted; `name` is the `"<module>.<name>"` label. -/
structure EventInfo where
  block : Nat
  number : Nat
  name : String
deriving DecidableEq

/-- Rust `BlockInfo`: a block hash, its header and its decoded events. -/
structure BlockInfo where
  hash : Nat
  header : Header
  events : List EventInfo
deriving DecidableEq

/-- Rust `BlockInfo::number`. -/
def BlockInfo.number (b : BlockInfo) : Nat :=
  b.header.number

/-- Rust `BlockEventSummary` (`src/app/mod.rs`). -/
structure BlockEventSummary where
  block : Nat
  number : Nat
  name : String
  count : Nat
deriving DecidableEq

/-- Rust `BackendEvent`: messages from the worker to the sync engine. -/
inductive BackendEvent where
  | connected (genesis : Nat) (is_reconnect : Bool)
  | newHeader (header : Header)
  | blockInfo (block : BlockInfo)
deriving DecidableEq

/-! ### Constants (`src/app/mod.rs`) -/

def MAX_BACKEND_UPDATES : Nat := 100

def MAX_RECENT_BLOCKS : Nat := 2000

def MAX_RECENT_EVENTS : Nat := 2000

/-- Rust `PRELOAD_BLOCKS` for the native (non-wasm32) build; the wasm32 build
uses 20 instead, which changes nothing below except this numeral. -/
def PRELOAD_BLOCKS : Nat := 1000

/-! ### `BackendState` and its operations (`src/app/mod.rs`) -/

/-- The sync-engine state.  `requests` is the log of block hashes sent on
the request channel via `Backend::get_block_info`. -/
structure BackendState where
  genesis_hash : Option Nat
  preload_blocks : Nat
  preload_next : Option Nat
  best_block : Nat
  hash_to_number : List (Nat × Nat)
  blocks : List (Nat × BlockInfo)
  recent_blocks : List Nat
  recent_events : List BlockEventSummary
  requests : List Nat
deriving DecidableEq

/-- The `Default` impl (cache fields; UI fields omitted). -/
def BackendState.default : BackendState :=
  { genesis_hash := none
    preload_blocks := PRELOAD_BLOCKS
    preload_next := none
    best_block := 0
    hash_to_number := []
    blocks := []
    recent_blocks := []
    recent_events := []
    requests := [] }

/-- Rust `BackendState::clear`. -/
def BackendState.clear (st : BackendState) : BackendState :=
  { st with
    genesis_hash := none
    best_block := 0
    preload_blocks := PRELOAD_BLOCKS
    preload_next := none
    hash_to_number := []
    blocks := []
    recent_blocks := []
    recent_events := [] }

/-- Rust `BackendState::get_block_info`: send a `GetBlockInfo` request (the
send-error path only logs, so the model always records the request). -/
def BackendState.get_block_info (st : BackendState) (hash : Nat) : BackendState :=
  { st with requests := st.requests ++ [hash] }

/-- The advance step of `BackendState::next_preload`: decrement the
counter, remember the parent hash as the next preload target, and request
that parent. -/
def preloadAdvance (st : BackendState) (block : BlockInfo) : BackendState :=
  ({ st with
      preload_blocks := st.preload_blocks - 1
      preload_next := some block.header.parent_hash }).get_block_info
    block.header.parent_hash

/-- Rust `BackendState::next_preload`: return early when the counter is zero,
or when a preload target is recorded and this block is not it. -/
def BackendState.next_preload (st : BackendState) (block : BlockInfo) : BackendState :=
  if st.preload_blocks = 0 then st
  else
    match st.preload_next with
    | some next => if next ≠ block.hash then st else preloadAdvance st block
    | none => preloadAdvance st block

/-- The event-summary aggregation fold inside `backend_updates`: group the
block's events by `(block, name)` key, skipping names starting with
`"System."`, counting duplicates.  The Rust fold targets a `HashMap`; the
association list fixes one iteration order for the later pushes, which is
an admissible refinement (no claim depends on the order among summaries of
a single block). -/
def summarizeEvents (events : List EventInfo) :
    List ((Nat × String) × BlockEventSummary) :=
  events.foldl
    (fun acc event =>
      if event.name.startsWith "System." then acc
      else
        let key := (event.block, event.name)
        match alistLookup key acc with
        | some s => alistInsert key { s with count := s.count + 1 } acc
        | none =>
          alistInsert key
            { block := event.block, number := event.number
              name := event.name, count := 1 } acc)
    []

/-- The `for_each` over the aggregated summaries: push each to the front of
`recent_events` when `is_best`, else to the back.  Only `recent_events` is
touched. -/
def pushSummaries (is_best : Bool) (summaries : List BlockEventSummary)
    (recent_events : List BlockEventSummary) : List BlockEventSummary :=
  summaries.foldl
    (fun re ev => if is_best then ev :: re else re ++ [ev])
    recent_events

/-- Fuel-indexed translation of
`while self.recent_events.len() > MAX_RECENT_EVENTS { pop_back }`;
each iteration shortens the deque by one, so any fuel of at least
`l.length - MAX_RECENT_EVENTS` runs the loop to completion. -/
def trimEventsGo : Nat → List BlockEventSummary → List BlockEventSummary
  | 0, l => l
  | fuel + 1, l =>
    if l.length > MAX_RECENT_EVENTS then trimEventsGo fuel l.dropLast else l

/-- Rust `while self.recent_events.len() > MAX_RECENT_EVENTS { pop_back }`. -/
def trimEvents (l : List BlockEventSummary) : List BlockEventSummary :=
  trimEventsGo l.length l

/-- Fuel-indexed translation of `while self.recent_blocks.len() >
MAX_RECENT_BLOCKS { if let Some(n) = pop_back { blocks.remove(&n) } }`. -/
def trimBlocksGo :
    Nat → List Nat → List (Nat × BlockInfo) →
      List Nat × List (Nat × BlockInfo)
  | 0, rb, bl => (rb, bl)
  | fuel + 1, rb, bl =>
    if rb.length > MAX_RECENT_BLOCKS then
      match rb.getLast? with
      | some number => trimBlocksGo fuel rb.dropLast (alistRemove number bl)
      | none => (rb, bl)
    else (rb, bl)

/-- Rust `while self.recent_blocks.len() > MAX_RECENT_BLOCKS { if let Some(n) =
pop_back { blocks.remove(&n) } }`. -/
def trimBlocks (rb : List Nat) (bl : List (Nat × BlockInfo)) :
    List Nat × List (Nat × BlockInfo) :=
  trimBlocksGo rb.length rb bl

/-- The `BackendEvent::BlockInfo` arm of `backend_updates`, in source
order: best-block update, `next_preload`, event-summary pushes,
`hash_to_number`/`blocks` insert with `recent_blocks` record on first
insertion, then the two trim loops. -/
def ingestBlock (st : BackendState) (block : BlockInfo) : BackendState :=
  let number := block.number
  let is_best : Bool := number > st.best_block
  let st1 :=
    BackendState.next_preload
      { st with best_block := if is_best then number else st.best_block } block
  let summaries := (summarizeEvents block.events).map Prod.snd
  let re1 := pushSummaries is_best summaries st1.recent_events
  let h2n := alistInsert block.hash number st1.hash_to_number
  let ig := alistInsertGet number block st1.blocks
  let rb1 :=
    if ig.1.isNone then
      if is_best then number :: st1.recent_blocks
      else st1.recent_blocks ++ [number]
    else st1.recent_blocks
  let tb := trimBlocks rb1 ig.2
  { st1 with
    recent_events := trimEvents re1
    hash_to_number := h2n
    blocks := tb.2
    recent_blocks := tb.1 }

/-- One iteration of the `backend_updates` polling loop: process one
`BackendEvent`. -/
def ingest (st : BackendState) (ev : BackendEvent) : BackendState :=
  match ev with
  | .connected genesis is_reconnect =>
    let st' :=
      if is_reconnect then
        if st.genesis_hash ≠ some genesis then st.clear else st
      else st
    { st' with genesis_hash := some genesis }
  | .newHeader header => st.get_block_info header.hash
  | .blockInfo block => ingestBlock st block

/-- Ingest a sequence of backend events in order. -/
def ingestAll (st : BackendState) (evs : List BackendEvent) : BackendState :=
  evs.foldl ingest st

/-! ### Event channel receiver (`src/backend/mod.rs`) -/

/-- Rust `tokio::sync::mpsc::error::TryRecvError`. -/
inductive TryRecvError where
  | chanEmpty
  | disconnected
deriving DecidableEq

/-- The consumer side of the event channel: queued events plus whether the
sender side is gone. -/
structure EventReceiver where
  queue : List BackendEvent
  disconnected : Bool
deriving DecidableEq

/-- Rust `Receiver::try_recv`: a queued message is returned even after
disconnect; an empty queue reports `Disconnected` when the sender is gone,
`Empty` otherwise.  Never blocks. -/
def try_recv (rx : EventReceiver) :
    Except TryRecvError (BackendEvent × EventReceiver) :=
  match rx.queue with
  | e :: rest => .ok (e, { rx with queue := rest })
  | [] =>
    .error (if rx.disconnected then .disconnected else .chanEmpty)

/-- Rust `Backend::next_update`. -/
def next_update (rx : EventReceiver) : Option BackendEvent × EventReceiver :=
  match try_recv rx with
  | .ok (msg, rx') => (some msg, rx')
  | .error .chanEmpty => (none, rx)
  | .error .disconnected => (none, rx)

/-! ### Navigation-parameter hash parsing (`BlockDetailsApp`) -/

/-- Rust `BlockHash::len_bytes()` for the 32-byte block hash type. -/
def BLOCK_HASH_LEN_BYTES : Nat := 32

/-- Value of one hex digit, as accepted by `hex::decode` (both cases). -/
def hexDigitVal (c : Char) : Option Nat :=
  if '0' ≤ c ∧ c ≤ '9' then some (c.toNat - '0'.toNat)
  else if 'a' ≤ c ∧ c ≤ 'f' then some (c.toNat - 'a'.toNat + 10)
  else if 'A' ≤ c ∧ c ≤ 'F' then some (c.toNat - 'A'.toNat + 10)
  else none

/-- Rust `hex::decode`: fails on odd length or any non-hex character, otherwise
produces one byte per pair of digits. -/
def hexDecode : List Char → Option (List Nat)
  | [] => some []
  | [_] => none
  | hi :: lo :: rest =>
    match hexDigitVal hi, hexDigitVal lo, hexDecode rest with
    | some h, some l, some bytes => some ((h * 16 + l) :: bytes)
    | _, _, _ => none

/-- Outcome of the navigation-parameter handling in
`BlockDetailsApp::parse_anchor_and_load_block`. -/
inductive AnchorParse where
  | bestBlock
  | blockHash (bytes : List Nat)
  | parseError (msg : String)
deriving DecidableEq

/-- The parameter-parsing logic of `parse_anchor_and_load_block` (the part
after stripping the `"block_details/"` anchor): empty parameter shows the
best block; a `"0x"`-prefixed parameter is hex-decoded and must yield
exactly `BlockHash::len_bytes()` bytes; anything else is an error.  The
error messages are abbreviated (the code formats the parameter into
them). -/
def parse_anchor_param (param : List Char) : AnchorParse :=
  if param.length = 0 then .bestBlock
  else if List.isPrefixOf ['0', 'x'] param then
    match hexDecode (param.drop 2) with
    | some raw =>
      if raw.length = BLOCK_HASH_LEN_BYTES then .blockHash raw
      else .parseError "Failed to parse block hash"
    | none => .parseError "Failed to parse block hash"
  else .parseError "Unsupported block number lookup"

/-! ### Range validation (`ChainInfoApp`) -/

/-- Rust `std::ops::Range<usize>`; the field `end` is a reserved word in Lean
and is called `stop` here. -/
structure RangeU where
  start : Nat
  stop : Nat
deriving DecidableEq

/-- Rust `ChainInfoApp::validate_range`: returns the validity verdict together
with the updated `reset_scroll` flag (set on rejection). -/
def validate_range (reset_scroll : Bool) (max : Nat) (range : RangeU) :
    Bool × Bool :=
  if range.start > range.stop ∨ range.stop > max then (false, true)
  else (true, reset_scroll)

/-- The guarded iteration of `recent_blocks_ui` / `recent_events_ui`: when
`validate_range` rejects, the closure returns early and no rows are
iterated; otherwise the rows in `[start, stop)` are shown. -/
def shown_rows (rows : List Nat) (range : RangeU) : List Nat :=
  if (validate_range false rows.length range).1 then
    (rows.drop range.start).take (range.stop - range.start)
  else []

/-! ### Concrete runs and spec-literal predicates used by the claims -/

/-- A block with hash and number both `i`, no events, parent hash 0. -/
def plainBlock (i : Nat) : BlockInfo :=
  { hash := i, header := { number := i, parent_hash := 0, hash := i }, events := [] }

/-- The run delivering `plainBlock 1, …, plainBlock n` in ascending order
(each arriving block is the new best). -/
def ascRun (n : Nat) : List BackendEvent :=
  (List.range n).map (fun j => .blockInfo (plainBlock (j + 1)))

/-- Expected `hash_to_number` after `ascRun n`: the pairs `[(1,1), …, (n,n)]`. -/
def ascPairsH : Nat → List (Nat × Nat)
  | 0 => []
  | n + 1 => ascPairsH n ++ [(n + 1, n + 1)]

/-- Expected `blocks` after `ascRun n`: `[(1, plainBlock 1), …, (n, plainBlock n)]`. -/
def ascPairsB : Nat → List (Nat × BlockInfo)
  | 0 => []
  | n + 1 => ascPairsB n ++ [(n + 1, plainBlock (n + 1))]

/-- Expected `recent_blocks` (front first): `[n, n-1, …, 1]`. -/
def descNums : Nat → List Nat
  | 0 => []
  | n + 1 => (n + 1) :: descNums n

/-- The expected state after `ascRun n` (for `1 ≤ n ≤ MAX_RECENT_BLOCKS`):
the first ingested block advanced the preload walk once (requesting its
parent hash 0, which never matches any later block). -/
def ascState (n : Nat) : BackendState :=
  { genesis_hash := none
    preload_blocks := PRELOAD_BLOCKS - 1
    preload_next := some 0
    best_block := n
    hash_to_number := ascPairsH n
    blocks := ascPairsB n
    recent_blocks := descNums n
    recent_events := []
    requests := [0] }

/-- Block `n` of the preload chain: hash `n + 1`, parent hash `n` (the
hash of block `n - 1`); the genesis block 0 gets the zero parent hash,
which is no block's hash. -/
def chainBlock (n : Nat) : BlockInfo :=
  { hash := n + 1
    header := { number := n, parent_hash := n, hash := n + 1 }
    events := [] }

/-- Chain blocks delivered walking backward from block `top` (`k` of them). -/
def preloadChain (top : Nat) : Nat → List BackendEvent
  | 0 => []
  | k + 1 => .blockInfo (chainBlock top) :: preloadChain (top - 1) k

/-- Parent hashes `[m, m-1, …, m-k+1]` requested while preloading
backward from block `m`. -/
def descFrom (m : Nat) : Nat → List Nat
  | 0 => []
  | k + 1 => m :: descFrom (m - 1) k

/-- Lowercase hex digit (the spec's notion of acceptable hash text). -/
def isLowerHexDigit (c : Char) : Bool :=
  ('0' ≤ c && c ≤ '9') || ('a' ≤ c && c ≤ 'f')

/-- The claim's acceptance predicate, taken literally from the spec:
`0x`-prefixed lowercase hex of exactly the fixed byte width. -/
def specLowercaseHexParam (param : List Char) : Bool :=
  List.isPrefixOf ['0', 'x'] param
    && (param.drop 2).length == 2 * BLOCK_HASH_LEN_BYTES
    && (param.drop 2).all isLowerHexDigit

/-- A `0x`-prefixed parameter of 64 uppercase hex digits. -/
def upperParam : List Char :=
  '0' :: 'x' :: List.replicate 64 'A'

/-- All `BlockInfo` events in the list agree with a single hash-to-number
assignment `f` (every real chain satisfies this: the hash determines the
block). -/
def eventConsistent (f : Nat → Nat) : BackendEvent → Prop
  | .blockInfo b => b.header.number = f b.hash
  | _ => True

/-- Hash-consistency of a whole event sequence. -/
def HashConsistent (f : Nat → Nat) (evs : List BackendEvent) : Prop :=
  ∀ ev ∈ evs, eventConsistent f ev

/-! ### Association list lemmas -/

theorem alistInsertGet_fst {α β : Type} [DecidableEq α] (k : α) (v : β)
    (l : List (α × β)) : (alistInsertGet k v l).1 = alistLookup k l := by
  induction l with
  | nil => rfl
  | cons p t ih =>
    obtain ⟨k', v'⟩ := p
    simp only [alistInsertGet, alistLookup]
    split <;> simp [ih]

theorem alistLookup_insert {α β : Type} [DecidableEq α] (k k' : α) (v : β)
    (l : List (α × β)) :
    alistLookup k' (alistInsert k v l) =
      if k' = k then some v else alistLookup k' l := by
  induction l with
  | nil =>
    simp only [alistInsert, alistInsertGet, alistLookup]
  | cons p t ih =>
    obtain ⟨a, b⟩ := p
    simp only [alistInsert, alistInsertGet] at ih ⊢
    by_cases hka : k = a
    · subst hka
      simp only [if_pos rfl, alistLookup]
      by_cases h' : k' = k
      · simp [h']
      · simp [h']
    · simp only [if_neg hka, alistLookup]
      by_cases h' : k' = a
      · subst h'
        have : ¬ k' = k := fun h => hka (h ▸ rfl)
        simp [this]
      · simp [h', ih]

theorem alistInsert_lookup_self {α β : Type} [DecidableEq α] {k : α} {v : β}
    {l : List (α × β)} (h : alistLookup k l = some v) :
    alistInsert k v l = l := by
  induction l with
  | nil => simp [alistLookup] at h
  | cons p t ih =>
    obtain ⟨a, b⟩ := p
    simp only [alistLookup] at h
    simp only [alistInsert, alistInsertGet]
    by_cases hka : k = a
    · subst hka
      simp only [if_pos rfl] at h ⊢
      obtain rfl : b = v := by
        simpa using h
      rfl
    · simp only [if_neg hka] at h ⊢
      simp only [alistInsert] at ih
      rw [ih h]

theorem alistInsertGet_lookup_none {α β : Type} [DecidableEq α] {k : α}
    (v : β) {l : List (α × β)} (h : alistLookup k l = none) :
    alistInsertGet k v l = (none, l ++ [(k, v)]) := by
  induction l with
  | nil => rfl
  | cons p t ih =>
    obtain ⟨a, b⟩ := p
    simp only [alistLookup] at h
    simp only [alistInsertGet]
    by_cases hka : k = a
    · simp [hka] at h
    · simp only [if_neg hka] at h ⊢
      simp [ih h]

theorem alistLookup_remove {α β : Type} [DecidableEq α] (k k' : α)
    (l : List (α × β)) :
    alistLookup k' (alistRemove k l) =
      if k' = k then none else alistLookup k' l := by
  induction l with
  | nil => simp [alistRemove, alistLookup]
  | cons p t ih =>
    obtain ⟨a, b⟩ := p
    simp only [alistRemove]
    by_cases hak : a = k <;> by_cases h' : k' = a <;>
      by_cases h'' : k' = k <;>
      simp_all [alistLookup]

theorem alistRemove_lookup_none {α β : Type} [DecidableEq α] {k : α}
    {l : List (α × β)} (h : alistLookup k l = none) :
    alistRemove k l = l := by
  induction l with
  | nil => rfl
  | cons p t ih =>
    obtain ⟨a, b⟩ := p
    simp only [alistLookup] at h
    by_cases hka : k = a
    · simp [hka] at h
    · simp only [if_neg hka] at h
      have hak : ¬ a = k := fun h' => hka h'.symm
      simp [alistRemove, hak, ih h]

theorem alistLookup_append_some {α β : Type} [DecidableEq α] {k : α} {v : β}
    {l₁ : List (α × β)} (l₂ : List (α × β))
    (h : alistLookup k l₁ = some v) :
    alistLookup k (l₁ ++ l₂) = some v := by
  induction l₁ with
  | nil => simp [alistLookup] at h
  | cons p t ih =>
    obtain ⟨a, b⟩ := p
    simp only [alistLookup, List.cons_append] at h ⊢
    by_cases hka : k = a
    · simpa [hka] using h
    · simp only [if_neg hka] at h ⊢
      exact ih h

theorem alistLookup_append_none {α β : Type} [DecidableEq α] {k : α}
    {l₁ : List (α × β)} (l₂ : List (α × β))
    (h : alistLookup k l₁ = none) :
    alistLookup k (l₁ ++ l₂) = alistLookup k l₂ := by
  induction l₁ with
  | nil => rfl
  | cons p t ih =>
    obtain ⟨a, b⟩ := p
    simp only [alistLookup, List.cons_append] at h ⊢
    by_cases hka : k = a
    · simp [hka] at h
    · simp only [if_neg hka] at h ⊢
      exact ih h

/-! ### Trim loop lemmas -/

theorem trimEventsGo_length (fuel : Nat) :
    ∀ l : List BlockEventSummary, l.length ≤ MAX_RECENT_EVENTS + fuel →
      (trimEventsGo fuel l).length = min l.length MAX_RECENT_EVENTS := by
  induction fuel with
  | zero =>
    intro l h
    simp only [trimEventsGo]
    omega
  | succ n ih =>
    intro l h
    simp only [trimEventsGo]
    split
    · rw [ih l.dropLast (by simp only [List.length_dropLast]; omega)]
      simp only [List.length_dropLast]
      omega
    · omega

theorem trimEvents_length (l : List BlockEventSummary) :
    (trimEvents l).length = min l.length MAX_RECENT_EVENTS :=
  trimEventsGo_length l.length l (by omega)

theorem trimBlocksGo_of_le (fuel : Nat) (rb : List Nat)
    (bl : List (Nat × BlockInfo)) (h : rb.length ≤ MAX_RECENT_BLOCKS) :
    trimBlocksGo fuel rb bl = (rb, bl) := by
  cases fuel with
  | zero => rfl
  | succ n =>
    simp only [trimBlocksGo]
    rw [if_neg (by omega)]

theorem trimBlocks_of_le {rb : List Nat} (bl : List (Nat × BlockInfo))
    (h : rb.length ≤ MAX_RECENT_BLOCKS) : trimBlocks rb bl = (rb, bl) :=
  trimBlocksGo_of_le rb.length rb bl h

theorem trimBlocksGo_fst_length (fuel : Nat) :
    ∀ (rb : List Nat) (bl : List (Nat × BlockInfo)),
      rb.length ≤ MAX_RECENT_BLOCKS + fuel →
      (trimBlocksGo fuel rb bl).1.length = min rb.length MAX_RECENT_BLOCKS := by
  induction fuel with
  | zero =>
    intro rb bl h
    show rb.length = min rb.length MAX_RECENT_BLOCKS
    omega
  | succ n ih =>
    intro rb bl h
    simp only [trimBlocksGo]
    split
    · rename_i hlen
      have hne : rb ≠ [] := by
        intro h'
        subst h'
        simp [MAX_RECENT_BLOCKS] at hlen
      split
      · rw [ih _ _ (by simp only [List.length_dropLast]; omega)]
        simp only [List.length_dropLast]
        omega
      · rename_i hnone
        exact absurd (List.getLast?_eq_none_iff.mp hnone) hne
    · show rb.length = min rb.length MAX_RECENT_BLOCKS
      omega

theorem trimBlocks_fst_length (rb : List Nat) (bl : List (Nat × BlockInfo)) :
    (trimBlocks rb bl).1.length = min rb.length MAX_RECENT_BLOCKS :=
  trimBlocksGo_fst_length rb.length rb bl (by omega)

theorem trimBlocksGo_lookup (fuel : Nat) :
    ∀ (rb : List Nat) (bl : List (Nat × BlockInfo)) (k : Nat) (v : BlockInfo),
      alistLookup k (trimBlocksGo fuel rb bl).2 = some v →
      alistLookup k bl = some v := by
  induction fuel with
  | zero =>
    intro rb bl k v h
    exact h
  | succ n ih =>
    intro rb bl k v h
    simp only [trimBlocksGo] at h
    split at h
    · split at h
      · have h' := ih _ _ _ _ h
        rw [alistLookup_remove] at h'
        split at h'
        · exact absurd h' (by simp)
        · exact h'
      · exact h
    · exact h

theorem trimBlocks_lookup {rb : List Nat} {bl : List (Nat × BlockInfo)}
    {k : Nat} {v : BlockInfo}
    (h : alistLookup k (trimBlocks rb bl).2 = some v) :
    alistLookup k bl = some v :=
  trimBlocksGo_lookup rb.length rb bl k v h

/-- One unfolding step of the fuel-indexed trim loop. -/
theorem trimBlocksGo_succ (fuel : Nat) (rb : List Nat)
    (bl : List (Nat × BlockInfo)) :
    trimBlocksGo (fuel + 1) rb bl =
      if rb.length > MAX_RECENT_BLOCKS then
        match rb.getLast? with
        | some number => trimBlocksGo fuel rb.dropLast (alistRemove number bl)
        | none => (rb, bl)
      else (rb, bl) := rfl

theorem trimBlocks_concat {l : List Nat} (x : Nat)
    (bl : List (Nat × BlockInfo)) (h : l.length = MAX_RECENT_BLOCKS) :
    trimBlocks (l ++ [x]) bl = (l, alistRemove x bl) := by
  have hlen : (l ++ [x]).length = MAX_RECENT_BLOCKS + 1 := by
    simp [h]
  rw [trimBlocks, hlen, trimBlocksGo_succ, hlen,
    if_pos (by omega : MAX_RECENT_BLOCKS + 1 > MAX_RECENT_BLOCKS),
    List.getLast?_concat]
  show trimBlocksGo MAX_RECENT_BLOCKS (l ++ [x]).dropLast
      (alistRemove x bl) = (l, alistRemove x bl)
  rw [List.dropLast_concat]
  exact trimBlocksGo_of_le _ _ _ (by omega)

/-! ### `next_preload` and `ingestBlock` structure lemmas -/

theorem next_preload_genesis_hash (st : BackendState) (b : BlockInfo) :
    (st.next_preload b).genesis_hash = st.genesis_hash := by
  unfold BackendState.next_preload preloadAdvance BackendState.get_block_info
  repeat' split
  all_goals rfl

theorem next_preload_best_block (st : BackendState) (b : BlockInfo) :
    (st.next_preload b).best_block = st.best_block := by
  unfold BackendState.next_preload preloadAdvance BackendState.get_block_info
  repeat' split
  all_goals rfl

theorem next_preload_hash_to_number (st : BackendState) (b : BlockInfo) :
    (st.next_preload b).hash_to_number = st.hash_to_number := by
  unfold BackendState.next_preload preloadAdvance BackendState.get_block_info
  repeat' split
  all_goals rfl

theorem next_preload_blocks (st : BackendState) (b : BlockInfo) :
    (st.next_preload b).blocks = st.blocks := by
  unfold BackendState.next_preload preloadAdvance BackendState.get_block_info
  repeat' split
  all_goals rfl

theorem next_preload_recent_blocks (st : BackendState) (b : BlockInfo) :
    (st.next_preload b).recent_blocks = st.recent_blocks := by
  unfold BackendState.next_preload preloadAdvance BackendState.get_block_info
  repeat' split
  all_goals rfl

theorem next_preload_recent_events (st : BackendState) (b : BlockInfo) :
    (st.next_preload b).recent_events = st.recent_events := by
  unfold BackendState.next_preload preloadAdvance BackendState.get_block_info
  repeat' split
  all_goals rfl

/-- The preload state machine only reads `preload_blocks` and
`preload_next`, so its effect commutes with updating `best_block`. -/
theorem next_preload_set_best (st : BackendState) (n : Nat) (b : BlockInfo) :
    BackendState.next_preload { st with best_block := n } b =
      { st.next_preload b with best_block := n } := by
  obtain ⟨g, pb, pn, bb, h2n, bl, rb, re, rq⟩ := st
  unfold BackendState.next_preload preloadAdvance BackendState.get_block_info
  dsimp only
  repeat' split
  all_goals rfl

/-- Restatement of `ingestBlock` with every field written out in terms of the incoming
state (using that `next_preload` only touches the preload fields and the
request log). -/
theorem ingestBlock_eq (st : BackendState) (b : BlockInfo) :
    ingestBlock st b =
      { genesis_hash := st.genesis_hash
        preload_blocks := (st.next_preload b).preload_blocks
        preload_next := (st.next_preload b).preload_next
        best_block :=
          if b.number > st.best_block then b.number else st.best_block
        hash_to_number := alistInsert b.hash b.number st.hash_to_number
        blocks :=
          (trimBlocks
            (if (alistLookup b.number st.blocks).isNone then
              if b.number > st.best_block then b.number :: st.recent_blocks
              else st.recent_blocks ++ [b.number]
            else st.recent_blocks)
            (alistInsert b.number b st.blocks)).2
        recent_blocks :=
          (trimBlocks
            (if (alistLookup b.number st.blocks).isNone then
              if b.number > st.best_block then b.number :: st.recent_blocks
              else st.recent_blocks ++ [b.number]
            else st.recent_blocks)
            (alistInsert b.number b st.blocks)).1
        recent_events :=
          trimEvents
            (pushSummaries (decide (b.number > st.best_block))
              ((summarizeEvents b.events).map Prod.snd) st.recent_events)
        requests := (st.next_preload b).requests } := by
  unfold ingestBlock
  simp only [next_preload_set_best]
  simp only [next_preload_genesis_hash, next_preload_best_block,
    next_preload_hash_to_number, next_preload_blocks,
    next_preload_recent_blocks, next_preload_recent_events,
    alistInsertGet_fst, alistInsert]
  by_cases hb : b.number > st.best_block
  · simp [hb]
  · simp [hb]

/-! ### Claims C2, C9 (reconnect / clear) -/

/-- Claim C2: processing `Connected{genesis, is_reconnect = true}` with a
genesis hash different from the stored one empties all four cache
structures and resets `best_block` to 0 immediately after that single
event; with an unchanged genesis hash it leaves all cache contents
unchanged. -/
theorem connected_reconnect_spec (st : BackendState) (g : Nat) :
    (st.genesis_hash ≠ some g →
      (ingest st (.connected g true)).blocks = [] ∧
      (ingest st (.connected g true)).hash_to_number = [] ∧
      (ingest st (.connected g true)).recent_blocks = [] ∧
      (ingest st (.connected g true)).recent_events = [] ∧
      (ingest st (.connected g true)).best_block = 0 ∧
      (ingest st (.connected g true)).genesis_hash = some g) ∧
    (st.genesis_hash = some g →
      (ingest st (.connected g true)).blocks = st.blocks ∧
      (ingest st (.connected g true)).hash_to_number = st.hash_to_number ∧
      (ingest st (.connected g true)).recent_blocks = st.recent_blocks ∧
      (ingest st (.connected g true)).recent_events = st.recent_events ∧
      (ingest st (.connected g true)).best_block = st.best_block) := by
  constructor
  · intro h
    simp [ingest, h, BackendState.clear]
  · intro h
    simp [ingest, h]

/-- Witness for C2 at a populated concrete state. -/
theorem connected_reconnect_spec_witness :
    (ingest (ascState 2) (.connected 7 true)).blocks = [] ∧
    (ingest { ascState 2 with genesis_hash := some 7 }
        (.connected 7 true)).recent_blocks = (ascState 2).recent_blocks := by
  constructor
  · exact ((connected_reconnect_spec (ascState 2) 7).1 (by decide)).1
  · exact (((connected_reconnect_spec
      { ascState 2 with genesis_hash := some 7 } 7).2 (by decide)).2.2).1

/-- Claim C9: a full cache clear triggered by a chain-identity change also
resets the preload state machine: the counter returns to `PRELOAD_BLOCKS`
and `preload_next` returns to `none`. -/
theorem clear_resets_preload (st : BackendState) (g : Nat)
    (h : st.genesis_hash ≠ some g) :
    (ingest st (.connected g true)).preload_blocks = PRELOAD_BLOCKS ∧
    (ingest st (.connected g true)).preload_next = none ∧
    (ingest st (.connected g true)).blocks = [] ∧
    (ingest st (.connected g true)).hash_to_number = [] ∧
    (ingest st (.connected g true)).recent_blocks = [] ∧
    (ingest st (.connected g true)).recent_events = [] := by
  simp [ingest, h, BackendState.clear]

/-- Witness for C9 at a state whose preload walk is mid-flight. -/
theorem clear_resets_preload_witness :
    (ingest (ascState 1) (.connected 7 true)).preload_blocks =
      PRELOAD_BLOCKS ∧
    (ingest (ascState 1) (.connected 7 true)).preload_next = none := by
  have h := clear_resets_preload (ascState 1) 7 (by decide)
  exact ⟨h.1, h.2.1⟩

/-! ### Claim C7 (range validation) -/

/-- Claim C7: a `(start, stop)` range with `start > stop` or
`stop > length` is rejected and no rows are iterated; a range with
`start ≤ stop ≤ length` is accepted. -/
theorem validate_range_spec (rows : List Nat) (r : RangeU) (reset : Bool) :
    (r.start > r.stop ∨ r.stop > rows.length →
      (validate_range reset rows.length r).1 = false ∧
      shown_rows rows r = []) ∧
    (r.start ≤ r.stop → r.stop ≤ rows.length →
      (validate_range reset rows.length r).1 = true) := by
  constructor
  · intro h
    constructor
    · simp [validate_range, h]
    · simp [shown_rows, validate_range, h]
  · intro h1 h2
    rw [validate_range, if_neg (by omega)]

/-- Witness for C7: a stale out-of-bounds range and an inverted range are
rejected with no rows shown; an in-bounds range is accepted. -/
theorem validate_range_spec_witness :
    ((validate_range false 3 ⟨2, 1⟩).1 = false ∧
      shown_rows [5, 6, 7] ⟨2, 1⟩ = []) ∧
    ((validate_range false 3 ⟨1, 4⟩).1 = false ∧
      shown_rows [5, 6, 7] ⟨1, 4⟩ = []) ∧
    (validate_range false 3 ⟨1, 3⟩).1 = true := by
  refine ⟨?_, ?_, ?_⟩
  · exact (validate_range_spec [5, 6, 7] ⟨2, 1⟩ false).1 (by decide)
  · exact (validate_range_spec [5, 6, 7] ⟨1, 4⟩ false).1 (by decide)
  · exact (validate_range_spec [5, 6, 7] ⟨1, 3⟩ false).2 (by decide) (by decide)

/-! ### Claim C10 (consumer poll) -/

/-- Claim C10: `next_update` returns the queued event when one is present
and `none` when the channel is empty, whether or not the worker side has
disconnected; no error or termination condition reaches the consumer. -/
theorem next_update_spec (q : List BackendEvent) (d : Bool) :
    (next_update ⟨q, d⟩).1 = q.head? := by
  cases q <;> cases d <;> rfl

/-! ### Claim C8 (preload gate applies only when a target is recorded) -/

/-- Claim C8: when `preload_next` is `none` and the counter is nonzero,
ingesting any `BlockInfo` advances the preload state machine (decrement,
record the parent as target, request the parent); the hash-equality gate
only applies when `preload_next` is `some`, in which case a non-matching
block leaves the preload state and the request log untouched. -/
theorem preload_gate_spec (st : BackendState) (b : BlockInfo) :
    (st.preload_next = none → st.preload_blocks ≠ 0 →
      (ingest st (.blockInfo b)).preload_blocks = st.preload_blocks - 1 ∧
      (ingest st (.blockInfo b)).preload_next = some b.header.parent_hash ∧
      (ingest st (.blockInfo b)).requests =
        st.requests ++ [b.header.parent_hash]) ∧
    (∀ h : Nat, st.preload_next = some h → h ≠ b.hash →
      (ingest st (.blockInfo b)).preload_blocks = st.preload_blocks ∧
      (ingest st (.blockInfo b)).preload_next = st.preload_next ∧
      (ingest st (.blockInfo b)).requests = st.requests) := by
  constructor
  · intro h1 h2
    simp [ingest, ingestBlock_eq, BackendState.next_preload, h1, h2,
      preloadAdvance, BackendState.get_block_info]
  · intro h hsome hne
    by_cases h0 : st.preload_blocks = 0 <;>
      simp [ingest, ingestBlock_eq, BackendState.next_preload, hsome, hne, h0]

/-- Witness for C8: from the default state (no recorded target, nonzero
counter) any block advances the walk; from a state waiting on hash 0 an
unrelated block does not. -/
theorem preload_gate_spec_witness :
    ((ingest BackendState.default (.blockInfo (plainBlock 5))).preload_blocks
        = PRELOAD_BLOCKS - 1 ∧
      (ingest BackendState.default
          (.blockInfo (plainBlock 5))).preload_next = some 0 ∧
      (ingest BackendState.default
          (.blockInfo (plainBlock 5))).requests = [0]) ∧
    ((ingest (ascState 1) (.blockInfo (plainBlock 5))).preload_blocks =
        (ascState 1).preload_blocks ∧
      (ingest (ascState 1) (.blockInfo (plainBlock 5))).preload_next =
        (ascState 1).preload_next ∧
      (ingest (ascState 1) (.blockInfo (plainBlock 5))).requests =
        (ascState 1).requests) := by
  constructor
  · exact (preload_gate_spec BackendState.default (plainBlock 5)).1
      (by decide) (by decide)
  · exact (preload_gate_spec (ascState 1) (plainBlock 5)).2 0
      (by decide) (by decide)

/-! ### Claim C3 (bounded caches) -/

/-- One ingest step preserves the length bounds on `recent_blocks` and
`recent_events` (the `BlockInfo` arm re-establishes them from scratch via
the trim loops). -/
theorem ingest_preserves_bounds (st : BackendState) (ev : BackendEvent)
    (h1 : st.recent_blocks.length ≤ MAX_RECENT_BLOCKS)
    (h2 : st.recent_events.length ≤ MAX_RECENT_EVENTS) :
    (ingest st ev).recent_blocks.length ≤ MAX_RECENT_BLOCKS ∧
    (ingest st ev).recent_events.length ≤ MAX_RECENT_EVENTS := by
  cases ev with
  | connected g r =>
    cases r with
    | false => simpa [ingest] using ⟨h1, h2⟩
    | true =>
      by_cases hg : st.genesis_hash ≠ some g
      · simp [ingest, hg, BackendState.clear]
      · simpa [ingest, hg] using ⟨h1, h2⟩
  | newHeader hd =>
    simpa [ingest, BackendState.get_block_info] using ⟨h1, h2⟩
  | blockInfo b =>
    constructor
    · show (ingestBlock st b).recent_blocks.length ≤ _
      rw [ingestBlock_eq]
      dsimp only
      rw [trimBlocks_fst_length]
      omega
    · show (ingestBlock st b).recent_events.length ≤ _
      rw [ingestBlock_eq]
      dsimp only
      rw [trimEvents_length]
      omega

/-- Bounds are preserved along any event sequence. -/
theorem ingestAll_preserves_bounds (evs : List BackendEvent) :
    ∀ st : BackendState,
      st.recent_blocks.length ≤ MAX_RECENT_BLOCKS →
      st.recent_events.length ≤ MAX_RECENT_EVENTS →
      (ingestAll st evs).recent_blocks.length ≤ MAX_RECENT_BLOCKS ∧
      (ingestAll st evs).recent_events.length ≤ MAX_RECENT_EVENTS := by
  induction evs with
  | nil => exact fun st h1 h2 => ⟨h1, h2⟩
  | cons e t ih =>
    intro st h1 h2
    have h := ingest_preserves_bounds st e h1 h2
    exact ih (ingest st e) h.1 h.2

/-- Claim C3: after every ingest call of any event sequence from the
initial state, `recent_blocks` holds at most `MAX_RECENT_BLOCKS` entries
and `recent_events` at most `MAX_RECENT_EVENTS` (every prefix of a
sequence is itself a sequence, so this bounds every intermediate state). -/
theorem recent_bounds_invariant (evs : List BackendEvent) :
    (ingestAll BackendState.default evs).recent_blocks.length ≤
      MAX_RECENT_BLOCKS ∧
    (ingestAll BackendState.default evs).recent_events.length ≤
      MAX_RECENT_EVENTS :=
  ingestAll_preserves_bounds evs BackendState.default
    (by simp [BackendState.default]) (by simp [BackendState.default])

/-! ### Claim C5 (idempotent ingest) -/

theorem alistRemove_append {α β : Type} [DecidableEq α] (k : α)
    (l₁ l₂ : List (α × β)) :
    alistRemove k (l₁ ++ l₂) = alistRemove k l₁ ++ alistRemove k l₂ := by
  induction l₁ with
  | nil => rfl
  | cons p t ih =>
    obtain ⟨a, b⟩ := p
    simp only [List.cons_append, alistRemove]
    split <;> simp [ih]

theorem ingestBlock_h2n (st : BackendState) (b : BlockInfo) :
    (ingestBlock st b).hash_to_number =
      alistInsert b.hash b.number st.hash_to_number := by
  rw [ingestBlock_eq]

theorem ingestBlock_best (st : BackendState) (b : BlockInfo) :
    (ingestBlock st b).best_block =
      if b.number > st.best_block then b.number else st.best_block := by
  rw [ingestBlock_eq]

theorem ingestBlock_blocks (st : BackendState) (b : BlockInfo) :
    (ingestBlock st b).blocks =
      (trimBlocks
        (if (alistLookup b.number st.blocks).isNone then
          if b.number > st.best_block then b.number :: st.recent_blocks
          else st.recent_blocks ++ [b.number]
        else st.recent_blocks)
        (alistInsert b.number b st.blocks)).2 := by
  rw [ingestBlock_eq]

theorem ingestBlock_recent_blocks (st : BackendState) (b : BlockInfo) :
    (ingestBlock st b).recent_blocks =
      (trimBlocks
        (if (alistLookup b.number st.blocks).isNone then
          if b.number > st.best_block then b.number :: st.recent_blocks
          else st.recent_blocks ++ [b.number]
        else st.recent_blocks)
        (alistInsert b.number b st.blocks)).1 := by
  rw [ingestBlock_eq]

/-- If the freshly inserted key is gone after the trim loop, the loop ran,
so the trimmed `recent_blocks` has exactly `MAX_RECENT_BLOCKS` entries. -/
theorem trimBlocks_insert_none {rb : List Nat} {bl : List (Nat × BlockInfo)}
    {k : Nat} {v : BlockInfo}
    (h : alistLookup k (trimBlocks rb (alistInsert k v bl)).2 = none) :
    (trimBlocks rb (alistInsert k v bl)).1.length = MAX_RECENT_BLOCKS := by
  by_cases hle : rb.length ≤ MAX_RECENT_BLOCKS
  · rw [trimBlocks_of_le _ hle] at h
    rw [alistLookup_insert, if_pos rfl] at h
    exact absurd h (by simp)
  · rw [trimBlocks_fst_length]
    omega

/-- Ingesting the same block twice: the second ingest leaves `blocks`,
`hash_to_number` and `recent_blocks` literally unchanged (the duplicated
event summaries in `recent_events` are the known §9 caveat). -/
theorem ingestBlock_twice (st : BackendState) (b : BlockInfo) :
    (ingestBlock (ingestBlock st b) b).blocks = (ingestBlock st b).blocks ∧
    (ingestBlock (ingestBlock st b) b).hash_to_number =
      (ingestBlock st b).hash_to_number ∧
    (ingestBlock (ingestBlock st b) b).recent_blocks =
      (ingestBlock st b).recent_blocks := by
  set st1 := ingestBlock st b with hst1
  have hbest : ¬ b.number > st1.best_block := by
    rw [hst1, ingestBlock_best]
    split <;> omega
  have hlen1 : st1.recent_blocks.length ≤ MAX_RECENT_BLOCKS := by
    rw [hst1, ingestBlock_recent_blocks, trimBlocks_fst_length]
    omega
  have hh2n : alistLookup b.hash st1.hash_to_number = some b.number := by
    rw [hst1, ingestBlock_h2n, alistLookup_insert, if_pos rfl]
  have hc2 : (ingestBlock st1 b).hash_to_number = st1.hash_to_number := by
    rw [ingestBlock_h2n]
    exact alistInsert_lookup_self hh2n
  cases ho : alistLookup b.number st1.blocks with
  | some v =>
    have hv : v = b := by
      have ho' := ho
      rw [hst1, ingestBlock_blocks] at ho'
      have h' := trimBlocks_lookup ho'
      rw [alistLookup_insert, if_pos rfl] at h'
      exact (Option.some.inj h').symm
    rw [hv] at ho
    have hins : alistInsert b.number b st1.blocks = st1.blocks :=
      alistInsert_lookup_self ho
    refine ⟨?_, hc2, ?_⟩
    · rw [ingestBlock_blocks, ho]
      simp only [Option.isNone_some, Bool.false_eq_true, if_false]
      rw [hins, trimBlocks_of_le _ hlen1]
    · rw [ingestBlock_recent_blocks, ho]
      simp only [Option.isNone_some, Bool.false_eq_true, if_false]
      rw [hins, trimBlocks_of_le _ hlen1]
  | none =>
    have hlen_eq : st1.recent_blocks.length = MAX_RECENT_BLOCKS := by
      have ho' := ho
      rw [hst1, ingestBlock_blocks] at ho'
      have h' := trimBlocks_insert_none ho'
      rw [hst1, ingestBlock_recent_blocks]
      exact h'
    have hins2 : alistInsert b.number b st1.blocks =
        st1.blocks ++ [(b.number, b)] := by
      unfold alistInsert
      rw [alistInsertGet_lookup_none b ho]
    have hrm : alistRemove b.number (st1.blocks ++ [(b.number, b)]) =
        st1.blocks := by
      rw [alistRemove_append, alistRemove_lookup_none ho]
      simp [alistRemove]
    refine ⟨?_, hc2, ?_⟩
    · rw [ingestBlock_blocks, ho]
      simp only [Option.isNone_none, if_true]
      rw [if_neg hbest, hins2, trimBlocks_concat _ _ hlen_eq, hrm]
    · rw [ingestBlock_recent_blocks, ho]
      simp only [Option.isNone_none, if_true]
      rw [if_neg hbest, hins2, trimBlocks_concat _ _ hlen_eq]

/-- Claim C5: for every cache state and every `BlockInfo`, ingesting it
twice leaves the key sets of `blocks` and `hash_to_number` after the
second ingest identical to those after the first, and `recent_blocks` is
unchanged by the second ingest (the number is recorded only on first
insertion). -/
theorem ingest_idempotent_spec (st : BackendState) (b : BlockInfo) :
    (∀ k, (alistLookup k
        (ingest (ingest st (.blockInfo b)) (.blockInfo b)).blocks).isSome =
      (alistLookup k (ingest st (.blockInfo b)).blocks).isSome) ∧
    (∀ k, (alistLookup k
        (ingest (ingest st (.blockInfo b))
          (.blockInfo b)).hash_to_number).isSome =
      (alistLookup k (ingest st (.blockInfo b)).hash_to_number).isSome) ∧
    (ingest (ingest st (.blockInfo b)) (.blockInfo b)).recent_blocks =
      (ingest st (.blockInfo b)).recent_blocks := by
  have h := ingestBlock_twice st b
  have he : ∀ s : BackendState, ingest s (.blockInfo b) = ingestBlock s b :=
    fun s => rfl
  rw [he, he, h.1, h.2.1, h.2.2]
  exact ⟨fun k => rfl, fun k => rfl, rfl⟩

/-! ### Claim C6 (hash text parsing) -/

theorem hexDecode_length : ∀ (cs : List Char) (bs : List Nat),
    hexDecode cs = some bs → 2 * bs.length = cs.length
  | [], bs, h => by
    simp only [hexDecode, Option.some.injEq] at h
    subst h
    rfl
  | [_], bs, h => by simp [hexDecode] at h
  | hi :: lo :: rest, bs, h => by
    simp only [hexDecode] at h
    cases hhi : hexDigitVal hi with
    | none => rw [hhi] at h; simp at h
    | some hv =>
      cases hlo : hexDigitVal lo with
      | none => rw [hhi, hlo] at h; simp at h
      | some lv =>
        cases hrest : hexDecode rest with
        | none => rw [hhi, hlo, hrest] at h; simp at h
        | some bs' =>
          rw [hhi, hlo, hrest] at h
          simp only [Option.some.injEq] at h
          subst h
          have ih := hexDecode_length rest bs' hrest
          simp only [List.length_cons]
          omega

theorem hexDecode_mem : ∀ (cs : List Char) (bs : List Nat),
    hexDecode cs = some bs → ∀ c ∈ cs, (hexDigitVal c).isSome
  | [], _, _ => by simp
  | [_], bs, h => by simp [hexDecode] at h
  | hi :: lo :: rest, bs, h => by
    simp only [hexDecode] at h
    cases hhi : hexDigitVal hi with
    | none => rw [hhi] at h; simp at h
    | some hv =>
      cases hlo : hexDigitVal lo with
      | none => rw [hhi, hlo] at h; simp at h
      | some lv =>
        cases hrest : hexDecode rest with
        | none => rw [hhi, hlo, hrest] at h; simp at h
        | some bs' =>
          intro c hc
          have ih := hexDecode_mem rest bs' hrest
          rcases List.mem_cons.mp hc with rfl | hc2
          · simp [hhi]
          · rcases List.mem_cons.mp hc2 with rfl | hc3
            · simp [hlo]
            · exact ih c hc3

theorem hexDecode_total : ∀ cs : List Char, cs.length % 2 = 0 →
    (∀ c ∈ cs, (hexDigitVal c).isSome) → (hexDecode cs).isSome
  | [], _, _ => by simp [hexDecode]
  | [_], h, _ => by simp at h
  | hi :: lo :: rest, hlen, hmem => by
    have hhi := hmem hi (by simp)
    have hlo := hmem lo (by simp)
    have hrest : (hexDecode rest).isSome :=
      hexDecode_total rest
        (by simp only [List.length_cons] at hlen; omega)
        (fun c hc => hmem c (by simp [hc]))
    obtain ⟨hv, eh⟩ := Option.isSome_iff_exists.mp hhi
    obtain ⟨lv, el⟩ := Option.isSome_iff_exists.mp hlo
    obtain ⟨bs', er⟩ := Option.isSome_iff_exists.mp hrest
    simp only [hexDecode]
    rw [eh, el, er]
    rfl

/-- Characterisation of `isPrefixOf ['0','x']`. -/
theorem isPrefixOf_0x (param : List Char) :
    List.isPrefixOf ['0', 'x'] param = true ↔
      ∃ rest, param = '0' :: 'x' :: rest := by
  cases param with
  | nil => simp [List.isPrefixOf]
  | cons c1 t =>
    cases t with
    | nil => simp [List.isPrefixOf]
    | cons c2 rest =>
      constructor
      · intro h
        simp only [List.isPrefixOf, List.cons.injEq, Bool.and_eq_true,
          beq_iff_eq] at h
        exact ⟨rest, by rw [← h.1, ← h.2.1]⟩
      · rintro ⟨rest', he⟩
        rw [he]
        simp [List.isPrefixOf]

/-- Claim C6 (amended): the navigation-parameter hash parse succeeds
exactly when the parameter is `"0x"` followed by exactly
`2 * BlockHash::len_bytes()` hex digits, where `hex::decode` accepts both
lowercase and uppercase digits; any other length or non-hex content does
not produce a hash. -/
theorem parse_anchor_param_spec (param : List Char) :
    (∃ bytes, parse_anchor_param param = .blockHash bytes) ↔
      (∃ rest, param = '0' :: 'x' :: rest ∧
        rest.length = 2 * BLOCK_HASH_LEN_BYTES ∧
        ∀ c ∈ rest, (hexDigitVal c).isSome) := by
  constructor
  · rintro ⟨bytes, h⟩
    rw [parse_anchor_param] at h
    split at h
    · exact absurd h (by simp)
    · split at h
      · rename_i hlen hpre
        obtain ⟨rest, hrest⟩ := (isPrefixOf_0x param).mp hpre
        subst hrest
        refine ⟨rest, rfl, ?_, ?_⟩
        · split at h
          · rename_i raw hdec
            split at h
            · rename_i hraw
              have := hexDecode_length _ _ hdec
              simp only [List.drop_succ_cons, List.drop_zero] at this
              omega
            · exact absurd h (by simp)
          · exact absurd h (by simp)
        · split at h
          · rename_i raw hdec
            have := hexDecode_mem _ _ hdec
            simpa using this
          · exact absurd h (by simp)
      · exact absurd h (by simp)
  · rintro ⟨rest, hrest, hlen, hmem⟩
    subst hrest
    have hdec : (hexDecode rest).isSome :=
      hexDecode_total rest (by omega) hmem
    obtain ⟨raw, hraw⟩ := Option.isSome_iff_exists.mp hdec
    have hrawlen : raw.length = BLOCK_HASH_LEN_BYTES := by
      have := hexDecode_length _ _ hraw
      simp [BLOCK_HASH_LEN_BYTES] at hlen ⊢
      omega
    refine ⟨raw, ?_⟩
    rw [parse_anchor_param]
    rw [if_neg (by simp)]
    rw [if_pos (by simp [List.isPrefixOf])]
    simp only [List.drop_succ_cons, List.drop_zero]
    rw [hraw]
    simp [hrawlen]

/-- Claim C6 counterexample: a parameter of 64 uppercase hex digits is
rejected by the spec's lowercase-hex-only criterion but parses
successfully (`hex::decode` accepts both cases), refuting the claimed
equivalence at this input. -/
theorem parse_anchor_uppercase_counterexample :
    parse_anchor_param upperParam = .blockHash (List.replicate 32 170) ∧
    specLowercaseHexParam upperParam = false := by
  constructor
  · decide
  · decide

/-- Witness for C6's amended equivalence at a lowercase 64-digit input. -/
theorem parse_anchor_param_spec_witness :
    ∃ bytes, parse_anchor_param ('0' :: 'x' :: List.replicate 64 'a') =
      .blockHash bytes :=
  (parse_anchor_param_spec ('0' :: 'x' :: List.replicate 64 'a')).mpr
    ⟨List.replicate 64 'a', rfl, by decide, by decide⟩

/-! ### Claim C4 (preload termination) -/

theorem ingestAll_append (st : BackendState) (l₁ l₂ : List BackendEvent) :
    ingestAll st (l₁ ++ l₂) = ingestAll (ingestAll st l₁) l₂ := by
  simp [ingestAll, List.foldl_append]

theorem descFrom_length : ∀ (k m : Nat), (descFrom m k).length = k
  | 0, _ => rfl
  | k + 1, m => by simp [descFrom, descFrom_length k (m - 1)]

theorem descFrom_mem_zero : ∀ m : Nat, 0 ∈ descFrom m (m + 1)
  | 0 => by simp [descFrom]
  | m + 1 => by
    have ih := descFrom_mem_zero m
    simp only [descFrom, Nat.add_sub_cancel]
    exact List.mem_cons_of_mem _ ih

theorem preloadChain_append (a : Nat) : ∀ (b top : Nat),
    preloadChain top (a + b) = preloadChain top a ++ preloadChain (top - a) b := by
  induction a with
  | zero =>
    intro b top
    simp [preloadChain]
  | succ n ih =>
    intro b top
    rw [show n + 1 + b = (n + b) + 1 from by omega]
    show BackendEvent.blockInfo (chainBlock top) ::
        preloadChain (top - 1) (n + b) = _
    rw [ih b (top - 1), show top - 1 - n = top - (n + 1) from by omega]
    rfl

/-- One preload step when this block is the recorded target: the chain
block `m` has hash `m + 1` and parent hash `m`. -/
theorem preload_step (st : BackendState) (m : Nat)
    (h1 : st.preload_blocks ≠ 0) (h2 : st.preload_next = some (m + 1)) :
    (ingest st (.blockInfo (chainBlock m))).preload_blocks =
      st.preload_blocks - 1 ∧
    (ingest st (.blockInfo (chainBlock m))).preload_next = some m ∧
    (ingest st (.blockInfo (chainBlock m))).requests = st.requests ++ [m] := by
  simp [ingest, ingestBlock_eq, BackendState.next_preload, h1, h2,
    preloadAdvance, BackendState.get_block_info, chainBlock]

/-- One preload step with no recorded target (the connection-time head). -/
theorem preload_step_none (st : BackendState) (b : BlockInfo)
    (h1 : st.preload_next = none) (h2 : st.preload_blocks ≠ 0) :
    (ingest st (.blockInfo b)).preload_blocks = st.preload_blocks - 1 ∧
    (ingest st (.blockInfo b)).preload_next = some b.header.parent_hash ∧
    (ingest st (.blockInfo b)).requests =
      st.requests ++ [b.header.parent_hash] := by
  simp [ingest, ingestBlock_eq, BackendState.next_preload, h1, h2,
    preloadAdvance, BackendState.get_block_info]

/-- A zero counter freezes the preload state and the request log. -/
theorem preload_stop (st : BackendState) (b : BlockInfo)
    (h : st.preload_blocks = 0) :
    (ingest st (.blockInfo b)).preload_blocks = 0 ∧
    (ingest st (.blockInfo b)).preload_next = st.preload_next ∧
    (ingest st (.blockInfo b)).requests = st.requests := by
  simp [ingest, ingestBlock_eq, BackendState.next_preload, h]

theorem preload_stop_chain : ∀ (k top : Nat) (st : BackendState),
    st.preload_blocks = 0 →
    (ingestAll st (preloadChain top k)).preload_blocks = 0 ∧
    (ingestAll st (preloadChain top k)).preload_next = st.preload_next ∧
    (ingestAll st (preloadChain top k)).requests = st.requests
  | 0, _, _, h => ⟨h, rfl, rfl⟩
  | k + 1, top, st, h => by
    have hstop := preload_stop st (chainBlock top) h
    have ih := preload_stop_chain k (top - 1)
      (ingest st (.blockInfo (chainBlock top))) hstop.1
    exact ⟨ih.1, ih.2.1.trans hstop.2.1, ih.2.2.trans hstop.2.2⟩

/-- The backward preload walk: from a state whose recorded target is the
hash of chain block `m` and whose counter is at least `k` (with at most
`m + 1` chain blocks consumed), ingesting `k` chain blocks decrements the
counter `k` times and requests exactly the parent hashes
`m, m - 1, …, m - k + 1`. -/
theorem preload_walk (k : Nat) : ∀ (c m : Nat) (st : BackendState),
    st.preload_blocks = c → st.preload_next = some (m + 1) →
    k ≤ c → k ≤ m + 1 →
    (ingestAll st (preloadChain m k)).preload_blocks = c - k ∧
    (ingestAll st (preloadChain m k)).preload_next = some (m + 1 - k) ∧
    (ingestAll st (preloadChain m k)).requests =
      st.requests ++ descFrom m k := by
  induction k with
  | zero =>
    intro c m st h1 h2 _ _
    simp [preloadChain, ingestAll, descFrom, h1, h2]
  | succ n ih =>
    intro c m st h1 h2 hkc hkm
    have hstep := preload_step st m (by omega) h2
    have hrun : preloadChain m (n + 1) =
        .blockInfo (chainBlock m) :: preloadChain (m - 1) n := rfl
    have hfold : ingestAll st
        (.blockInfo (chainBlock m) :: preloadChain (m - 1) n) =
        ingestAll (ingest st (.blockInfo (chainBlock m)))
          (preloadChain (m - 1) n) := rfl
    rw [hrun, hfold]
    cases n with
    | zero =>
      show (ingest st (.blockInfo (chainBlock m))).preload_blocks = c - 1 ∧
        (ingest st (.blockInfo (chainBlock m))).preload_next =
          some (m + 1 - 1) ∧
        (ingest st (.blockInfo (chainBlock m))).requests =
          st.requests ++ descFrom m 1
      refine ⟨?_, ?_, ?_⟩
      · rw [hstep.1, h1]
      · rw [hstep.2.1]
        congr 1
      · rw [hstep.2.2]
        rfl
    | succ n' =>
      have hm1 : m - 1 + 1 = m := by omega
      have hw := ih (c - 1) (m - 1) (ingest st (.blockInfo (chainBlock m)))
        (by rw [hstep.1, h1]) (by rw [hstep.2.1, hm1]) (by omega) (by omega)
      refine ⟨?_, ?_, ?_⟩
      · rw [hw.1]
        omega
      · rw [hw.2.1]
        congr 1
        omega
      · rw [hw.2.2, hstep.2.2, List.append_assoc]
        congr 1

/-- Claim C4 (amended): starting from preload counter `K`,
(1) with a chain of at least `K + 1` blocks (head block `m`, `K ≤ m`),
ingesting the walked chain issues exactly `K` backward parent requests and
the counter reaches 0;
(2) with the whole chain shorter than `K` (`m + 1 < K` blocks down to the
genesis block), the walk decrements once per chain block and issues one
request per block — including a final request for the genesis block's
zero parent hash, which is no chain block's hash — and then halts with
the counter stuck at `K - (m + 1)` and the target stuck at that
unresolvable zero hash. -/
theorem preload_termination_spec (K m : Nat) :
    (K ≤ m →
      (ingestAll { BackendState.default with preload_blocks := K }
          (preloadChain m (K + 1))).preload_blocks = 0 ∧
      (ingestAll { BackendState.default with preload_blocks := K }
          (preloadChain m (K + 1))).requests = descFrom m K ∧
      (ingestAll { BackendState.default with preload_blocks := K }
          (preloadChain m (K + 1))).requests.length = K) ∧
    (m + 1 < K →
      (ingestAll { BackendState.default with preload_blocks := K }
          (preloadChain m (m + 1))).preload_blocks = K - (m + 1) ∧
      (ingestAll { BackendState.default with preload_blocks := K }
          (preloadChain m (m + 1))).requests = descFrom m (m + 1) ∧
      (ingestAll { BackendState.default with preload_blocks := K }
          (preloadChain m (m + 1))).preload_next = some 0 ∧
      0 ∈ (ingestAll { BackendState.default with preload_blocks := K }
          (preloadChain m (m + 1))).requests) := by
  have hpb0 : ({ BackendState.default with preload_blocks := K } :
      BackendState).preload_blocks = K := rfl
  have hreq0 : ({ BackendState.default with preload_blocks := K } :
      BackendState).requests = [] := rfl
  have hparent : ∀ n : Nat, (chainBlock n).header.parent_hash = n :=
    fun _ => rfl
  constructor
  · intro hKm
    by_cases hK0 : K = 0
    · subst hK0
      have h := preload_stop_chain 1 m
        { BackendState.default with preload_blocks := 0 } rfl
      exact ⟨h.1, h.2.2, by rw [h.2.2]; rfl⟩
    · have hsplit1 : preloadChain m (K + 1) =
          preloadChain m 1 ++ preloadChain (m - 1) K := by
        rw [show K + 1 = 1 + K from by omega]
        exact preloadChain_append 1 K m
      have hsplit2 : preloadChain (m - 1) K =
          preloadChain (m - 1) (K - 1) ++ preloadChain (m - K) 1 := by
        have h := preloadChain_append (K - 1) 1 (m - 1)
        rw [show K - 1 + 1 = K from by omega,
          show m - 1 - (K - 1) = m - K from by omega] at h
        exact h
      have hstep := preload_step_none
        { BackendState.default with preload_blocks := K }
        (chainBlock m) rfl (by rw [hpb0]; omega)
      have hwalk := preload_walk (K - 1) (K - 1) (m - 1)
        (ingest { BackendState.default with preload_blocks := K }
          (.blockInfo (chainBlock m)))
        (by rw [hstep.1, hpb0])
        (by rw [hstep.2.1, hparent, show m - 1 + 1 = m from by omega])
        (by omega) (by omega)
      have hstop := preload_stop_chain 1 (m - K)
        (ingestAll
          (ingest { BackendState.default with preload_blocks := K }
            (.blockInfo (chainBlock m)))
          (preloadChain (m - 1) (K - 1)))
        (by rw [hwalk.1]; omega)
      have hrw : ingestAll
          { BackendState.default with preload_blocks := K }
          (preloadChain m (K + 1)) =
          ingestAll (ingestAll
            (ingest { BackendState.default with preload_blocks := K }
              (.blockInfo (chainBlock m)))
            (preloadChain (m - 1) (K - 1)))
            (preloadChain (m - K) 1) := by
        rw [hsplit1, ingestAll_append, hsplit2, ingestAll_append]
        rfl
      have hdesc : descFrom m K = m :: descFrom (m - 1) (K - 1) := by
        cases K with
        | zero => exact absurd rfl hK0
        | succ t => rfl
      refine ⟨?_, ?_, ?_⟩
      · rw [hrw]
        exact hstop.1
      · rw [hrw, hstop.2.2, hwalk.2.2, hstep.2.2, hparent, hreq0, hdesc]
        simp
      · rw [hrw, hstop.2.2, hwalk.2.2, hstep.2.2, hparent, hreq0]
        simp [descFrom_length]
        omega
  · intro hmK
    by_cases hm0 : m = 0
    · subst hm0
      have hstep := preload_step_none
        { BackendState.default with preload_blocks := K }
        (chainBlock 0) rfl (by rw [hpb0]; omega)
      have he : ingestAll { BackendState.default with preload_blocks := K }
          (preloadChain 0 1) =
          ingest { BackendState.default with preload_blocks := K }
            (.blockInfo (chainBlock 0)) := rfl
      refine ⟨?_, ?_, ?_, ?_⟩
      · rw [he, hstep.1, hpb0]
      · rw [he, hstep.2.2, hparent, hreq0]
        rfl
      · rw [he, hstep.2.1, hparent]
      · rw [he, hstep.2.2, hparent, hreq0]
        simp
    · have hsplit1 : preloadChain m (m + 1) =
          preloadChain m 1 ++ preloadChain (m - 1) m := by
        rw [show m + 1 = 1 + m from by omega]
        exact preloadChain_append 1 m m
      have hstep := preload_step_none
        { BackendState.default with preload_blocks := K }
        (chainBlock m) rfl (by rw [hpb0]; omega)
      have hwalk := preload_walk m (K - 1) (m - 1)
        (ingest { BackendState.default with preload_blocks := K }
          (.blockInfo (chainBlock m)))
        (by rw [hstep.1, hpb0])
        (by rw [hstep.2.1, hparent, show m - 1 + 1 = m from by omega])
        (by omega) (by omega)
      have hrw : ingestAll
          { BackendState.default with preload_blocks := K }
          (preloadChain m (m + 1)) =
          ingestAll
            (ingest { BackendState.default with preload_blocks := K }
              (.blockInfo (chainBlock m)))
            (preloadChain (m - 1) m) := by
        rw [hsplit1, ingestAll_append]
        rfl
      have hdesc : descFrom m (m + 1) = m :: descFrom (m - 1) m := rfl
      refine ⟨?_, ?_, ?_, ?_⟩
      · rw [hrw, hwalk.1]
        omega
      · rw [hrw, hwalk.2.2, hstep.2.2, hparent, hreq0, hdesc]
        simp
      · rw [hrw, hwalk.2.1]
        congr 1
        omega
      · rw [hrw, hwalk.2.2, hstep.2.2, hparent, hreq0]
        have h0 := descFrom_mem_zero m
        rw [hdesc] at h0
        simpa using h0

/-- Claim C4 counterexample: with counter 5 and a 3-block chain (blocks
2, 1, 0, where the genesis block 0 carries the zero parent hash and no
chain block has hash 0), the walk does issue a request for the
unresolvable zero parent hash — it is the last entry of the request log —
contrary to the claim that preload halts without issuing it. -/
theorem preload_genesis_request_counterexample :
    (ingestAll { BackendState.default with preload_blocks := 5 }
        (preloadChain 2 3)).requests = [2, 1, 0] ∧
    (ingestAll { BackendState.default with preload_blocks := 5 }
        (preloadChain 2 3)).requests.getLast? = some 0 := by
  constructor
  · decide
  · decide

/-- Witness for C4: both parts of the amended statement at concrete
inputs. -/
theorem preload_termination_spec_witness :
    ((ingestAll { BackendState.default with preload_blocks := 2 }
        (preloadChain 5 3)).preload_blocks = 0 ∧
      (ingestAll { BackendState.default with preload_blocks := 2 }
        (preloadChain 5 3)).requests = descFrom 5 2 ∧
      (ingestAll { BackendState.default with preload_blocks := 2 }
        (preloadChain 5 3)).requests.length = 2) ∧
    ((ingestAll { BackendState.default with preload_blocks := 7 }
        (preloadChain 3 4)).preload_blocks = 7 - 4 ∧
      (ingestAll { BackendState.default with preload_blocks := 7 }
        (preloadChain 3 4)).requests = descFrom 3 4 ∧
      (ingestAll { BackendState.default with preload_blocks := 7 }
        (preloadChain 3 4)).preload_next = some 0 ∧
      0 ∈ (ingestAll { BackendState.default with preload_blocks := 7 }
        (preloadChain 3 4)).requests) := by
  constructor
  · exact (preload_termination_spec 2 5).1 (by omega)
  · exact (preload_termination_spec 7 3).2 (by omega)

/-! ### Claim C1 (hash_to_number / blocks key-set sync) -/

theorem ascRun_succ (n : Nat) :
    ascRun (n + 1) = ascRun n ++ [.blockInfo (plainBlock (n + 1))] := by
  simp [ascRun, List.range_succ]

theorem ascPairsH_lookup_gt : ∀ n k, n < k →
    alistLookup k (ascPairsH n) = none
  | 0, _, _ => rfl
  | n + 1, k, h => by
    simp only [ascPairsH]
    rw [alistLookup_append_none _ (ascPairsH_lookup_gt n k (by omega))]
    show (if k = n + 1 then some (n + 1)
      else alistLookup k ([] : List (Nat × Nat))) = none
    rw [if_neg (by omega)]
    rfl

theorem ascPairsB_lookup_gt : ∀ n k, n < k →
    alistLookup k (ascPairsB n) = none
  | 0, _, _ => rfl
  | n + 1, k, h => by
    simp only [ascPairsB]
    rw [alistLookup_append_none _ (ascPairsB_lookup_gt n k (by omega))]
    show (if k = n + 1 then some (plainBlock (n + 1))
      else alistLookup k ([] : List (Nat × BlockInfo))) = none
    rw [if_neg (by omega)]
    rfl

theorem ascPairsH_lookup_one : ∀ n, 1 ≤ n →
    alistLookup 1 (ascPairsH n) = some 1
  | 0, h => by omega
  | n + 1, _ => by
    by_cases hn : 1 ≤ n
    · have ih := ascPairsH_lookup_one n hn
      simp only [ascPairsH]
      exact alistLookup_append_some _ ih
    · have h0 : n = 0 := by omega
      subst h0
      rfl

theorem descNums_length : ∀ n, (descNums n).length = n
  | 0 => rfl
  | n + 1 => by simp [descNums, descNums_length n]

theorem descNums_getLast : ∀ n, (descNums (n + 1)).getLast? = some 1
  | 0 => rfl
  | n + 1 => by
    show ((n + 2) :: (n + 1) :: descNums n).getLast? = some 1
    rw [List.getLast?_cons_cons]
    exact descNums_getLast n

/-- A trim step at exactly one over the bound: pop the back entry and drop
it from `blocks`. -/
theorem trimBlocks_pop {rb : List Nat} {x : Nat}
    (bl : List (Nat × BlockInfo)) (hlen : rb.length = MAX_RECENT_BLOCKS + 1)
    (hlast : rb.getLast? = some x) :
    trimBlocks rb bl = (rb.dropLast, alistRemove x bl) := by
  rw [trimBlocks, hlen, trimBlocksGo_succ, if_pos (by omega), hlast]
  exact trimBlocksGo_of_le _ _ _
    (by rw [List.length_dropLast, hlen]; omega)

/-- The preload walk ignores every ascending-run block after the first:
the recorded target is the zero hash, which no `plainBlock j` (`j ≠ 0`)
carries. -/
theorem ascState_next_preload (n j : Nat) (hj : j ≠ 0) :
    BackendState.next_preload (ascState n) (plainBlock j) = ascState n := by
  rw [BackendState.next_preload]
  rw [show (ascState n).preload_blocks = PRELOAD_BLOCKS - 1 from rfl]
  rw [if_neg (by decide)]
  show (if (0 : Nat) ≠ (plainBlock j).hash then ascState n
    else preloadAdvance (ascState n) (plainBlock j)) = ascState n
  rw [show (plainBlock j).hash = j from rfl]
  rw [if_pos (show (0 : Nat) ≠ j from fun h => hj h.symm)]

/-- One ascending-run step below the bound. -/
theorem ascState_step (n : Nat) (h1 : 1 ≤ n)
    (hle : n + 1 ≤ MAX_RECENT_BLOCKS) :
    ingest (ascState n) (.blockInfo (plainBlock (n + 1))) =
      ascState (n + 1) := by
  have hlookH : alistLookup (n + 1) (ascPairsH n) = none :=
    ascPairsH_lookup_gt n (n + 1) (by omega)
  have hlookB : alistLookup (n + 1) (ascPairsB n) = none :=
    ascPairsB_lookup_gt n (n + 1) (by omega)
  have hnp := ascState_next_preload n (n + 1) (by omega)
  show ingestBlock (ascState n) (plainBlock (n + 1)) = ascState (n + 1)
  rw [ingestBlock_eq, hnp]
  rw [show alistLookup (plainBlock (n + 1)).number (ascState n).blocks = none
      from hlookB]
  simp only [Option.isNone_none, if_true]
  rw [if_pos (show (plainBlock (n + 1)).number > (ascState n).best_block
      from by show n + 1 > n; omega)]
  rw [if_pos (show (plainBlock (n + 1)).number > (ascState n).best_block
      from by show n + 1 > n; omega)]
  rw [show alistInsert (plainBlock (n + 1)).number (plainBlock (n + 1))
        (ascState n).blocks = ascPairsB (n + 1) from by
      show alistInsert (n + 1) (plainBlock (n + 1)) (ascPairsB n) = _
      unfold alistInsert
      rw [alistInsertGet_lookup_none _ hlookB]
      rfl]
  rw [show ((plainBlock (n + 1)).number :: (ascState n).recent_blocks) =
      descNums (n + 1) from rfl]
  rw [trimBlocks_of_le _ (by rw [descNums_length]; omega)]
  rw [show alistInsert (plainBlock (n + 1)).hash (plainBlock (n + 1)).number
        (ascState n).hash_to_number = ascPairsH (n + 1) from by
      show alistInsert (n + 1) (n + 1) (ascPairsH n) = _
      unfold alistInsert
      rw [alistInsertGet_lookup_none _ hlookH]
      rfl]
  rfl

/-- The cache state after the first `n` ascending blocks
(`1 ≤ n ≤ MAX_RECENT_BLOCKS`). -/
theorem ascRun_state : ∀ n, 1 ≤ n → n ≤ MAX_RECENT_BLOCKS →
    ingestAll BackendState.default (ascRun n) = ascState n
  | 0, h, _ => by omega
  | n + 1, _, hle => by
    by_cases hn : 1 ≤ n
    · have ih := ascRun_state n hn (by omega)
      rw [ascRun_succ, ingestAll_append, ih]
      exact ascState_step n hn hle
    · have h0 : n = 0 := by omega
      subst h0
      decide

set_option maxRecDepth 4000 in
/-- Claim C1 counterexample: after ingesting blocks 1…2001 in ascending
order, block number 1 has been evicted from `blocks` (and from
`recent_blocks`), yet `hash_to_number` still maps hash 1 to number 1 — the
eviction loop removes only the `blocks` entry and never touches
`hash_to_number`, so the two key sets are no longer in sync. -/
theorem hash_to_number_desync_counterexample :
    alistLookup 1 (ingestAll BackendState.default
      (ascRun 2001)).hash_to_number = some 1 ∧
    alistLookup 1 (ingestAll BackendState.default
      (ascRun 2001)).blocks = none := by
  have hst := ascRun_state 2000 (by omega) (by decide)
  have hsucc : ascRun 2001 = ascRun 2000 ++ [.blockInfo (plainBlock 2001)] := by
    have h := ascRun_succ 2000
    norm_num at h
    exact h
  have hlookH : alistLookup 2001 (ascPairsH 2000) = none :=
    ascPairsH_lookup_gt 2000 2001 (by omega)
  have hlookB : alistLookup 2001 (ascPairsB 2000) = none :=
    ascPairsB_lookup_gt 2000 2001 (by omega)
  rw [hsucc, ingestAll_append, hst]
  constructor
  · show alistLookup 1
      (ingestBlock (ascState 2000) (plainBlock 2001)).hash_to_number = some 1
    rw [ingestBlock_h2n, alistLookup_insert,
      if_neg (show ¬(1 : Nat) = (plainBlock 2001).hash from by decide)]
    exact ascPairsH_lookup_one 2000 (by omega)
  · show alistLookup 1
      (ingestBlock (ascState 2000) (plainBlock 2001)).blocks = none
    have hlen : (descNums 2001).length = MAX_RECENT_BLOCKS + 1 := by
      rw [descNums_length]
      decide
    have hlast : (descNums 2001).getLast? = some 1 := descNums_getLast 2000
    have hblocks : (ingestBlock (ascState 2000) (plainBlock 2001)).blocks =
        alistRemove 1 (ascPairsB 2000 ++ [(2001, plainBlock 2001)]) := by
      rw [ingestBlock_blocks]
      rw [show alistLookup (plainBlock 2001).number (ascState 2000).blocks =
          none from hlookB]
      simp only [Option.isNone_none, if_true]
      rw [if_pos (show (plainBlock 2001).number > (ascState 2000).best_block
          from by decide)]
      rw [show alistInsert (plainBlock 2001).number (plainBlock 2001)
            (ascState 2000).blocks =
            ascPairsB 2000 ++ [(2001, plainBlock 2001)] from by
          show alistInsert 2001 (plainBlock 2001) (ascPairsB 2000) = _
          unfold alistInsert
          rw [alistInsertGet_lookup_none _ hlookB]]
      rw [show ((plainBlock 2001).number :: (ascState 2000).recent_blocks) =
          descNums 2001 from rfl]
      rw [trimBlocks_pop _ hlen hlast]
    rw [hblocks, alistLookup_remove, if_pos rfl]

/-- The two-part cache coherence invariant: `hash_to_number` agrees with
the global hash-to-number assignment `f`, and every number present in
`blocks` is reachable from some hash in `hash_to_number`. -/
def goodState (f : Nat → Nat) (st : BackendState) : Prop :=
  (∀ h m, alistLookup h st.hash_to_number = some m → f h = m) ∧
  (∀ n, (alistLookup n st.blocks).isSome →
    ∃ h, alistLookup h st.hash_to_number = some n)

theorem goodState_ingest (f : Nat → Nat) (st : BackendState)
    (ev : BackendEvent) (hst : goodState f st)
    (hev : eventConsistent f ev) : goodState f (ingest st ev) := by
  cases ev with
  | connected g r =>
    cases r with
    | false => exact hst
    | true =>
      by_cases hg : st.genesis_hash ≠ some g
      · constructor
        · intro h m hl
          rw [show (ingest st (.connected g true)).hash_to_number = [] from by
            simp [ingest, hg, BackendState.clear]] at hl
          exact absurd hl (by simp [alistLookup])
        · intro n hn
          rw [show (ingest st (.connected g true)).blocks = [] from by
            simp [ingest, hg, BackendState.clear]] at hn
          exact absurd hn (by simp [alistLookup])
      · have he : (ingest st (.connected g true)).hash_to_number =
            st.hash_to_number ∧
            (ingest st (.connected g true)).blocks = st.blocks := by
          simp [ingest, hg]
        constructor
        · intro h m hl
          rw [he.1] at hl
          exact hst.1 h m hl
        · intro n hn
          rw [he.2] at hn
          obtain ⟨h, hh⟩ := hst.2 n hn
          exact ⟨h, by rw [he.1]; exact hh⟩
  | newHeader hd => exact hst
  | blockInfo b =>
    have hb : b.number = f b.hash := hev
    have hh2n : (ingest st (.blockInfo b)).hash_to_number =
        alistInsert b.hash b.number st.hash_to_number := ingestBlock_h2n st b
    constructor
    · intro h m hl
      rw [hh2n, alistLookup_insert] at hl
      by_cases hhb : h = b.hash
      · rw [if_pos hhb] at hl
        obtain rfl : b.number = m := Option.some.inj hl
        rw [hhb, ← hb]
      · rw [if_neg hhb] at hl
        exact hst.1 h m hl
    · intro n hn
      obtain ⟨v, hv⟩ := Option.isSome_iff_exists.mp hn
      have hv' : alistLookup n
          (alistInsert b.number b st.blocks) = some v := by
        have := trimBlocks_lookup (ingestBlock_blocks st b ▸ hv)
        exact this
      rw [alistLookup_insert] at hv'
      by_cases hnb : n = b.number
      · refine ⟨b.hash, ?_⟩
        rw [hh2n, alistLookup_insert, if_pos rfl, hnb]
      · rw [if_neg hnb] at hv'
        obtain ⟨h, hh⟩ := hst.2 n (by rw [hv']; rfl)
        refine ⟨h, ?_⟩
        rw [hh2n, alistLookup_insert]
        by_cases hhb : h = b.hash
        · have h1 : f h = n := hst.1 h n hh
          rw [hhb] at h1
          rw [← hb] at h1
          exact absurd h1.symm hnb
        · rw [if_neg hhb]
          exact hh

theorem goodState_ingestAll (f : Nat → Nat) (evs : List BackendEvent) :
    ∀ st : BackendState, goodState f st → HashConsistent f evs →
      goodState f (ingestAll st evs) := by
  induction evs with
  | nil => exact fun st h _ => h
  | cons e t ih =>
    intro st hst hcons
    exact ih (ingest st e)
      (goodState_ingest f st e hst (hcons e (by simp)))
      (fun ev hev => hcons ev (by simp [hev]))

/-- Claim C1 (amended): when the ingested events are hash-consistent (each
`BlockInfo`'s number agrees with a single hash-to-number assignment, as on
any real chain), every number present in `blocks` is reachable through
some `hash_to_number` entry after every ingest — but the converse
containment fails: eviction removes entries from `blocks` without removing
the matching `hash_to_number` entries, so `hash_to_number`'s translated
key set can strictly exceed the key set of `blocks`. -/
theorem blocks_hash_containment (f : Nat → Nat) (evs : List BackendEvent)
    (hcons : HashConsistent f evs) (n : Nat)
    (hn : (alistLookup n (ingestAll BackendState.default evs).blocks).isSome) :
    ∃ h, alistLookup h
      (ingestAll BackendState.default evs).hash_to_number = some n :=
  (goodState_ingestAll f evs BackendState.default
    ⟨fun h m hl => absurd hl (by simp [BackendState.default, alistLookup]),
     fun k hk => absurd hk (by simp [BackendState.default, alistLookup])⟩
    hcons).2 n hn

/-- Witness for C1's amended containment at a concrete two-block run. -/
theorem blocks_hash_containment_witness :
    ∃ h, alistLookup h (ingestAll BackendState.default
      [.blockInfo (plainBlock 4), .blockInfo (plainBlock 9)]).hash_to_number =
      some 4 :=
  blocks_hash_containment (fun h => h)
    [.blockInfo (plainBlock 4), .blockInfo (plainBlock 9)]
    (by
      intro ev hev
      rcases List.mem_cons.mp hev with rfl | hev2
      · rfl
      · rcases List.mem_cons.mp hev2 with rfl | hev3
        · rfl
        · simp at hev3)
    4 (by decide)

end PolymeshGui
